import Mathlib

/-!
Verification of the ridership-allocation engine of `ApplyRidersToGraph.py`.

The Python program builds a directed multigraph of a street network
(networkx `MultiDiGraph`), derives a route-scoped subgraph per route,
resolves shortest paths between consecutive bus stops, and apportions
boarding/alighting volumes onto edge `total` accumulators, finally grouping
the accumulators by `TLINK_ID` into a ledger.

The shallow embedding below mirrors the Python code:
* a graph is the list of its directed edges in insertion order; parallel
  edges between the same ordered node pair carry networkx-style integer
  keys assigned consecutively at insertion;
* Python dicts that are only ever written with assignment are modelled as
  association lists where the newest binding is consed to the front, so
  `List.lookup` realises the last-writer-wins dict lookup;
* numeric values (costs, boarding counts, loads) are rationals; Python
  float arithmetic on the small ratios involved is exact, and a division
  by zero (Python `ZeroDivisionError`, which aborts the run through the
  outer exception handler) is modelled by an explicit `Option` guard;
* exceptions are modelled by explicit outcome types: `StepRes.fatal`
  corresponds to an exception reaching the outer `except Exception`
  handler of `RidershipAlgorithm` (which ends the run via `SystemExit`),
  `StepRes.broke` to the `break` statement of the missing-link handler;
* `nx.shortest_path(G, s, t, weight='cost')` is modelled by an executable
  minimum-cost simple-path search; the spec leaves tie-breaking among
  equal-cost paths unspecified and no claim depends on it;
* `MultiGraph.remove_edge(u, v)` without a key removes one arbitrary
  parallel edge; the embedding removes the parallel edge with the
  smallest key (the behaviour of CPython 2 `dict.popitem` on the small
  consecutive integer keys that networkx 1.x assigns).
-/

/-- Direction of travel, the keys of `dictRouteMetrics`. The Python dict is
created with exactly the keys 'inbound' and 'outbound', iterated in that
order here. -/
inductive Dir where
  | inbound
  | outbound
deriving DecidableEq, Repr

/-- One directed edge of the multigraph, with the attribute dict of
`G.add_edge(u, v, link=tlink, cost=cost, total=0)` flattened into fields.
`key` is the networkx multi-edge key inside the (u, v) slot. -/
structure Edge where
  u : Int
  v : Int
  key : Nat
  link : Int
  cost : ℚ
  total : ℚ
deriving DecidableEq, Repr

/-- The multigraph as its edge list in insertion order. -/
abbrev Graph := List Edge

/-- All parallel edges between the ordered node pair (u, v), in key order
(insertion order equals key order since keys are assigned consecutively).
This is the attribute dict `G.get_edge_data(u, v)` of the Python code. -/
def edgesBetween (g : Graph) (u v : Int) : List Edge :=
  g.filter (fun e => decide (e.u = u ∧ e.v = v))

/-- Node list of the graph (nodes exist only by virtue of edge insertion). -/
def nodesOf (g : Graph) : List Int :=
  g.foldl (fun a e => a ++ [e.u, e.v]) []

/-- Model of `G.add_edge(u, v, link=l, cost=c, total=0)`: appends a fresh
parallel edge whose key is the number of edges already in the (u, v) slot. -/
def addEdge (g : Graph) (u v : Int) (l : Int) (c : ℚ) : Graph :=
  g ++ [⟨u, v, (edgesBetween g u v).length, l, c, 0⟩]

/-- One row of the TNET street cursor: (FR_TPOINT, TO_TPOINT, TLINK_ID,
CAR_FLOW, ROLL_LEN). Null endpoints are `none`. -/
structure SegmentRecord where
  fromNode : Option Int
  toNode : Option Int
  link : Int
  flow : Int
  cost : ℚ
deriving DecidableEq, Repr

/-- Loop body of `CreateDirectedMultiGraph` for one cursor row (lines
67-87): skip rows with a null endpoint; flow 2 gives the single reverse
edge, flow 1 the single forward edge, any other flow code both
directions. -/
def addRow (g : Graph) (row : SegmentRecord) : Graph :=
  match row.fromNode, row.toNode with
  | some ifrom, some toN =>
      if row.flow = 2 then addEdge g toN ifrom row.link row.cost
      else if row.flow = 1 then addEdge g ifrom toN row.link row.cost
      else addEdge (addEdge g ifrom toN row.link row.cost) toN ifrom row.link row.cost
  | _, _ => g

/-- Model of `CreateDirectedMultiGraph` (lines 54-89). -/
def CreateDirectedMultiGraph (segs : List SegmentRecord) : Graph :=
  segs.foldl addRow []

/-- Spec-side description of the edges one segment record produces
(spec section 4.1), for comparison with `CreateDirectedMultiGraph`:
records with a null endpoint are skipped; reverse-only produces exactly
the edge toNode→fromNode, forward-only exactly fromNode→toNode, anything
else both directed edges, each carrying the record's link and cost. -/
def specRecordEdges (row : SegmentRecord) : List (Int × Int × Int × ℚ) :=
  match row.fromNode, row.toNode with
  | some ifrom, some toN =>
      if row.flow = 2 then [(toN, ifrom, row.link, row.cost)]
      else if row.flow = 1 then [(ifrom, toN, row.link, row.cost)]
      else [(ifrom, toN, row.link, row.cost), (toN, ifrom, row.link, row.cost)]
  | _, _ => []

/-- Dictionary mapping a TLINK id to the node pair of one edge carrying it;
the newest binding shadows older ones (Python dict assignment). -/
abbrev NodeIndex := List (Int × Int × Int)

/-- Dict assignment `d[l] = p`: the old binding for l is dropped and the new
one becomes visible. -/
def idxInsert (d : NodeIndex) (l : Int) (p : Int × Int) : NodeIndex :=
  (l, p) :: d.eraseP (fun b => decide (b.1 = l))

/-- Model of `NodeLookup` (lines 166-185): scan every edge; for each, write
`link ↦ (edge[0], edge[1])` for every parallel edge of its slot. The last
writer wins, as with the Python dict. -/
def NodeLookup (g : Graph) : NodeIndex :=
  g.foldl
    (fun d e =>
      (edgesBetween g e.u e.v).foldl (fun d k => idxInsert d k.link (e.u, e.v)) d)
    []

/-- Look a stop's TLINK id up in a node index; a `none` id or an absent id
corresponds to the defaultdict yielding the empty tuple, whose indexing
raises IndexError in the Python code. -/
def nodeFor (idx : NodeIndex) (l : Option Int) : Option (Int × Int) :=
  l.bind (fun x => List.lookup x idx)

/-- A route-scoped view: the node bunch passed to `G.subgraph` together with
the induced (and later pruned) edges. -/
structure Subgraph where
  nodes : List Int
  edges : List Edge
deriving DecidableEq, Repr

/-- Smallest multi-edge key present between (u, v); used to model
`remove_edge(u, v)` without an explicit key. -/
def minKeyBetween (es : List Edge) (u v : Int) : Option Nat :=
  ((es.filter (fun e => decide (e.u = u ∧ e.v = v))).map (·.key)).foldr
    (fun k acc => match acc with
      | none => some k
      | some m => some (min k m))
    none

/-- Model of `subgraph.remove_edge(u, v)`: remove the parallel edge between
(u, v) with the smallest key; a no-op when no such edge remains (unreachable
in the pruning loop, which fires once per out-of-set snapshot entry). -/
def removeMinKey (es : List Edge) (u v : Int) : List Edge :=
  match minKeyBetween es u v with
  | none => es
  | some k => es.eraseP (fun e => decide (e.u = u ∧ e.v = v ∧ e.key = k))

/-- Route-local node index of `CreateSubgraph` (lines 200-207): scan every
edge; record the slot pair of every parallel edge whose link belongs to the
route. -/
def routeNodeIndex (g : Graph) (links : List Int) : NodeIndex :=
  g.foldl
    (fun d e =>
      (edgesBetween g e.u e.v).foldl
        (fun d k => if k.link ∈ links then idxInsert d k.link (e.u, e.v) else d)
        d)
    []

/-- The node bunch (line 210): all nodes named by the route-local index. -/
def nbunch (d : NodeIndex) : List Int :=
  d.foldl (fun a b => a ++ [b.2.1, b.2.2]) ([] : List Int)

/-- Node-induced edge selection of `G.subgraph` (line 211). -/
def inducedEdges (g : Graph) (nodes : List Int) : List Edge :=
  g.filter (fun e => decide (e.u ∈ nodes ∧ e.v ∈ nodes))

/-- The pruning loop (lines 214-216): for every snapshot entry whose link
is not in the route's links, remove one parallel edge of its slot. -/
def pruneEdges (links : List Int) (induced : List Edge) : List Edge :=
  induced.foldl
    (fun es it => if it.link ∈ links then es else removeMinKey es it.u it.v)
    induced

/-- Model of `CreateSubgraph` (lines 189-223). Returns the route's link
list, the route-local node index and the pruned node-induced subgraph. -/
def CreateSubgraph (g : Graph) (r : Int) (routeSegments : List (Int × List Int)) :
    List Int × NodeIndex × Subgraph :=
  let dictRouteLinks := (List.lookup r routeSegments).getD []
  let dictRouteNodes := routeNodeIndex g dictRouteLinks
  let lstNodes := nbunch dictRouteNodes
  (dictRouteLinks, dictRouteNodes,
    ⟨lstNodes, pruneEdges dictRouteLinks (inducedEdges g lstNodes)⟩)

/-- Model of `AdjustRidership` (lines 227-242). Python raises
ZeroDivisionError when the used denominator is zero; that exception would
reach the outer handler and abort the run, so it is modelled as `none`.
Returns (adjusted_ons, adjusted_offs). -/
def AdjustRidership (ons offs total_on total_off : ℚ) : Option (ℚ × ℚ) :=
  if total_on > total_off then
    if total_off = 0 then none
    else some (ons, offs + (total_on - total_off) * (offs / total_off))
  else
    if total_on = 0 then none
    else some (ons + (total_off - total_on) * (ons / total_on), offs)

/-- Link chosen by the loop body of `GetTLINK` (lines 258-270) for one
consecutive node pair, given the parallel edges of that pair in key order:
the last parallel edge whose link is in the route link list wins; if the
sentinel 0 survives, the scan restarts from the key-0 cost and keeps the
last parallel edge whose cost is at most the running minimum. Returns 0 for
an empty slot (in Python `data` would be None and the loop would crash;
consecutive nodes of a returned path always share an edge). -/
def pickLink (routeLinks : List Int) (es : List Edge) : Int :=
  let t := es.foldl (fun t e => if e.link ∈ routeLinks then e.link else t) 0
  if t = 0 then
    match es with
    | [] => 0
    | e0 :: _ => (es.foldl (fun ct e => if e.cost ≤ ct.1 then (e.cost, e.link) else ct)
        (e0.cost, 0)).2
  else t

/-- Model of `GetTLINK` (lines 246-272): zip the path with its tail and
resolve every consecutive pair against the full graph. -/
def GetTLINK (g : Graph) (path : List Int) (routeLinks : List Int) : List Int :=
  (path.zip path.tail).map (fun p => pickLink routeLinks (edgesBetween g p.1 p.2))

/-- Minimum-cost simple-path search, the model of
`nx.shortest_path(·, s, t, weight='cost')`. Fuel-bounded DFS over edges not
revisiting nodes; returns cost and node list. Tie-breaking among equal-cost
paths is deterministic but unspecified by the spec. -/
def spDFS (es : List Edge) (t : Int) : Nat → List Int → Int → Option (ℚ × List Int)
  | 0, _, _ => none
  | Nat.succ fuel, visited, u =>
    if u = t then some (0, [u])
    else
      ((es.filter (fun e => decide (e.u = u ∧ ¬ e.v ∈ visited))).filterMap
          (fun e =>
            (spDFS es t fuel (e.v :: visited) e.v).map
              (fun cp => (cp.1 + e.cost, u :: cp.2)))).foldl
        (fun best cand =>
          match best with
          | none => some cand
          | some b => if cand.1 < b.1 then some cand else some b)
        none

/-- Outcome of a shortest-path call as seen by the exception handlers:
a found node path, networkx NoPath, or a KeyError (source node absent from
the graph view), which the enclosing `except (IndexError, KeyError)` turns
into the whole-graph fallback. -/
inductive SPRes where
  | found (p : List Int)
  | noPath
  | keyErr
deriving DecidableEq, Repr

/-- Shortest path on the route subgraph. A source node outside the node
bunch raises KeyError inside networkx; an unreachable target raises
NetworkXNoPath. -/
def shortestPathSub (sg : Subgraph) (s t : Int) : SPRes :=
  if s ∈ sg.nodes then
    match spDFS sg.edges t (2 * sg.edges.length + 1) [s] s with
    | some cp => .found cp.2
    | none => .noPath
  else .keyErr

/-- Shortest path on the whole graph (the fallback view). -/
def shortestPathFull (g : Graph) (s t : Int) : SPRes :=
  if s ∈ nodesOf g then
    match spDFS g t (2 * g.length + 1) [s] s with
    | some cp => .found cp.2
    | none => .noPath
  else .keyErr

/-- Model of `G[u][v][0]['total'] += delta`: add to the total of the key-0
edge of the (u, v) slot. The slot always holds a key-0 edge when (u, v)
comes from a node index, which records endpoint pairs of existing edges. -/
def updateTotal (g : Graph) (u v : Int) (delta : ℚ) : Graph :=
  g.map (fun e =>
    if e.u = u ∧ e.v = v ∧ e.key = 0 then { e with total := e.total + delta } else e)

/-- One MetroTool query row (after CSV parsing): route, direction, stop
sequence, boardings, alightings and the stop's TLINK id (`none` when the
CSV field was unparseable). -/
structure MetricRow where
  route : Int
  dir : Dir
  seq : ℚ
  ons : ℚ
  offs : ℚ
  link : Option Int
deriving DecidableEq, Repr

/-- Per-stop data as stored in `dictRouteMetrics[dir][route][seq]`. -/
structure StopRec where
  link : Option Int
  ons : ℚ
  offs : ℚ
deriving DecidableEq, Repr

/-- Insert a sequence key into an ascending list (Python `sorted`). -/
def insertSeq (x : ℚ) : List ℚ → List ℚ
  | [] => [x]
  | y :: ys => if x ≤ y then x :: y :: ys else y :: insertSeq x ys

/-- Ascending sort of sequence keys. -/
def sortSeqs (l : List ℚ) : List ℚ := l.foldr insertSeq []

/-- Distinct keys in first-appearance order (dict key set). -/
def dedupSeqs (l : List ℚ) : List ℚ :=
  l.foldl (fun a x => if x ∈ a then a else a ++ [x]) []

/-- Rows of the MetroTool query belonging to one (direction, route) pair,
in file order. -/
def rowsFor (rows : List MetricRow) (d : Dir) (r : Int) : List MetricRow :=
  rows.filter (fun row => decide (row.dir = d ∧ row.route = r))

/-- Model of `dictRouteMetrics[dir][route]` traversed along
`sorted(dictStops.keys())` (lines 312-313): the stop records in ascending
sequence order; for a duplicated sequence key the last row wins (dict
assignment in `RouteDataLookup`). -/
def stopsFor (rows : List MetricRow) (d : Dir) (r : Int) : List StopRec :=
  let rows' := rowsFor rows d r
  (sortSeqs (dedupSeqs (rows'.map (·.seq)))).map
    (fun s =>
      match (rows'.filter (fun row => decide (row.seq = s))).getLast? with
      | some row => ⟨row.link, row.ons, row.offs⟩
      | none => ⟨none, 0, 0⟩)

/-- Model of `dictRouteTotals[dir][route]['ons']` (line 154): every CSV row
contributes, including rows later shadowed in the sequence dict. -/
def totalOnsFor (rows : List MetricRow) (d : Dir) (r : Int) : ℚ :=
  ((rowsFor rows d r).map (·.ons)).sum

/-- Model of `dictRouteTotals[dir][route]['offs']` (line 155). -/
def totalOffsFor (rows : List MetricRow) (d : Dir) (r : Int) : ℚ :=
  ((rowsFor rows d r).map (·.offs)).sum

/-- Run state shared by every loop of `RidershipAlgorithm`: the mutable
graph, the two diagnostic lists, and the function-level local `tlinks`,
which is unbound (`none`) until the first successful path resolution and
whose stale value is silently reused after a NoPath failure. -/
structure AlgState where
  G : Graph
  bad : List (Int × Dir)
  missing : List (Int × Dir)
  tlinks : Option (List Int)
deriving DecidableEq, Repr

/-- Data fixed while one (route, direction) pair is processed. -/
structure DirCtx where
  r : Int
  d : Dir
  routeLinks : List Int
  sub : Subgraph
  allNodes : NodeIndex
  total_on : ℚ
  total_off : ℚ
deriving DecidableEq, Repr

/-- State carried from stop pair to stop pair: the run state, the current
value of the local `dictRouteNodes` (which the fallback rebinds to the
whole-graph index), and the running load `total`. -/
structure PairSt where
  st : AlgState
  routeNodes : NodeIndex
  total : ℚ
deriving DecidableEq, Repr

/-- Outcome of one stop-pair iteration: fall through to the next pair,
`break` out of the stop loop (missing link), or an exception reaching the
outer handler (fatal, the run dies with SystemExit and produces nothing). -/
inductive StepRes where
  | cont (ps : PairSt)
  | broke (st : AlgState) (routeNodes : NodeIndex)
  | fatal
deriving DecidableEq, Repr

/-- Normalization of `tlinks` (lines 374-377): prepend the source link if
absent; drop the trailing entry if the target link occurs anywhere in the
list. -/
def normTlinks (es : Int) (et? : Option Int) (tl : List Int) : List Int :=
  let tl1 := if es ∈ tl then tl else es :: tl
  match et? with
  | some et => if et ∈ tl1 then tl1.dropLast else tl1
  | none => tl1

/-- Model of lines 373-412: after the tlink normalization, resolve
`path_nodes` through the whole-graph index, adjust the ridership, update
the source edge with the running total, and either clamp (bad data) or
subtract the alightings before propagating along the rest of the path.
`rn` is the current `dictRouteNodes`, `tl?` the current `tlinks` local
(`none` reproduces the NameError of an unbound `tlinks`). -/
def applyLoads (ctx : DirCtx) (isFirst : Bool) (ps : PairSt) (rn : NodeIndex)
    (tl? : Option (List Int)) (s0 s1 : StopRec) : StepRes :=
  match tl? with
  | none => .fatal
  | some tl =>
    match s0.link, nodeFor rn s0.link with
    | some es, some spair =>
      let tl2 := normTlinks es s1.link tl
      match tl2.mapM (fun t => List.lookup t ctx.allNodes) with
      | none => .fatal
      | some pns =>
        match AdjustRidership s0.ons s0.offs ctx.total_on ctx.total_off with
        | none => .fatal
        | some adj =>
          let t1 := if isFirst then ps.total + adj.1 + adj.2 else ps.total + adj.1
          let g1 := updateTotal ps.st.G spair.1 spair.2 t1
          if t1 < adj.2 then
            let t2 := if ctx.total_on > ctx.total_off then ctx.total_on else ctx.total_off
            let g2 := (pns.drop 1).foldl (fun g p => updateTotal g p.1 p.2 t2) g1
            let st1 := { ps.st with G := g2, tlinks := some tl2 }
            .cont ⟨{ st1 with bad := st1.bad ++ [(ctx.r, ctx.d)] }, rn, t2⟩
          else
            let t2 := t1 - adj.2
            let g2 := (pns.drop 1).foldl (fun g p => updateTotal g p.1 p.2 t2) g1
            .cont ⟨{ ps.st with G := g2, tlinks := some tl2 }, rn, t2⟩
    | _, _ => .fatal

/-- Model of the whole-graph fallback (lines 344-371): rebind
`dictRouteNodes` to the whole-graph index, retry both lookups (an
IndexError here records the (route, direction) as missing-link and breaks
the stop loop), and route on the whole graph; NoPath again falls through
with the stale `tlinks`. -/
def processPairFallback (ctx : DirCtx) (isFirst : Bool) (ps : PairSt)
    (s0 s1 : StopRec) : StepRes :=
  let rn := ctx.allNodes
  match nodeFor rn s0.link, nodeFor rn s1.link with
  | some sp, some tp =>
    match shortestPathFull ps.st.G sp.1 tp.1 with
    | .found path =>
        applyLoads ctx isFirst ps rn (some (GetTLINK ps.st.G path ctx.routeLinks)) s0 s1
    | .noPath => applyLoads ctx isFirst ps rn ps.st.tlinks s0 s1
    | .keyErr => .fatal
  | _, _ => .broke { ps.st with missing := ps.st.missing ++ [(ctx.r, ctx.d)] } rn

/-- Model of one iteration of the stop loop (lines 321-412): resolve the
source and target nodes through the route-local index and route on the
subgraph; on IndexError/KeyError (absent link, or source node outside the
subgraph) run the fallback; on NoPath keep the stale `tlinks` and fall
through to the load application. -/
def processPair (ctx : DirCtx) (isFirst : Bool) (ps : PairSt) (s0 s1 : StopRec) : StepRes :=
  match nodeFor ps.routeNodes s0.link, nodeFor ps.routeNodes s1.link with
  | some sp, some tp =>
    match shortestPathSub ctx.sub sp.1 tp.1 with
    | .found path =>
        applyLoads ctx isFirst ps ps.routeNodes
          (some (GetTLINK ps.st.G path ctx.routeLinks)) s0 s1
    | .noPath => applyLoads ctx isFirst ps ps.routeNodes ps.st.tlinks s0 s1
    | .keyErr => processPairFallback ctx isFirst ps s0 s1
  | _, _ => processPairFallback ctx isFirst ps s0 s1

/-- Fold of `processPair` over the consecutive stop pairs of one direction;
`break` and fatal outcomes stop the fold. -/
def processPairs (ctx : DirCtx) : Bool → PairSt → List (StopRec × StopRec) → StepRes
  | _, ps, [] => .cont ps
  | isFirst, ps, p :: rest =>
    match processPair ctx isFirst ps p.1 p.2 with
    | .cont ps' => processPairs ctx false ps' rest
    | .broke st rn => .broke st rn
    | .fatal => .fatal

/-- Model of one direction of the direction loop (lines 310-412): collect
the direction's stops and totals, reset the running total to 0, and walk
the consecutive stop pairs. A missing-link break ends the direction
normally; `none` is a fatal exception. Returns the run state and the
current `dictRouteNodes` binding, which the next direction of the same
route inherits. -/
def processDirection (rows : List MetricRow) (routeLinks : List Int) (sub : Subgraph)
    (allNodes : NodeIndex) (r : Int) (d : Dir) (st : AlgState) (rn : NodeIndex) :
    Option (AlgState × NodeIndex) :=
  let stops := stopsFor rows d r
  let ctx : DirCtx :=
    ⟨r, d, routeLinks, sub, allNodes, totalOnsFor rows d r, totalOffsFor rows d r⟩
  match processPairs ctx true ⟨st, rn, 0⟩ (stops.zip stops.tail) with
  | .cont ps => some (ps.st, ps.routeNodes)
  | .broke st' rn' => some (st', rn')
  | .fatal => none

/-- Model of one iteration of the route loop (lines 304-412): build the
route subgraph and its node index, then process the two directions in
order, threading the `dictRouteNodes` binding between them. -/
def processRoute (rows : List MetricRow) (routeSegments : List (Int × List Int))
    (allNodes : NodeIndex) (st : AlgState) (r : Int) : Option AlgState :=
  match CreateSubgraph st.G r routeSegments with
  | (routeLinks, dictRouteNodes, sub) =>
    match processDirection rows routeLinks sub allNodes r .inbound st dictRouteNodes with
    | none => none
    | some (st1, rn1) =>
      match processDirection rows routeLinks sub allNodes r .outbound st1 rn1 with
      | none => none
      | some (st2, _) => some st2

/-- Fold of `processRoute` over the route keys. -/
def processRoutes (rows : List MetricRow) (routeSegments : List (Int × List Int))
    (allNodes : NodeIndex) : AlgState → List Int → Option AlgState
  | st, [] => some st
  | st, r :: rs =>
    match processRoute rows routeSegments allNodes st r with
    | none => none
    | some st' => processRoutes rows routeSegments allNodes st' rs

/-- Model of `RidershipAlgorithm` (lines 276-414): build the graph and the
whole-graph node index, run every route, and return the loaded graph with
the two diagnostic lists; `none` is a fatal abort (SystemExit), which
produces no ledger. -/
def RidershipAlgorithm (segs : List SegmentRecord)
    (routeSegments : List (Int × List Int)) (rows : List MetricRow) :
    Option (Graph × List (Int × Dir) × List (Int × Dir)) :=
  let G := CreateDirectedMultiGraph segs
  let allNodes := NodeLookup G
  (processRoutes rows routeSegments allNodes ⟨G, [], [], none⟩
      (routeSegments.map (·.1))).map
    (fun st => (st.G, st.bad, st.missing))

/-- Model of the ledger loop of `main` (lines 429-433): scan every edge;
for each parallel edge of its slot assign (not add) its total under its
link id. The newest assignment is consed to the front, so `List.lookup`
sees the last writer. -/
def Ledger (g : Graph) : List (Int × ℚ) :=
  g.foldl
    (fun dd e => (edgesBetween g e.u e.v).foldl (fun dd k => (k.link, k.total) :: dd) dd)
    []

/-- Ridership written back for one link (lines 435-441): the ledger entry,
or 0 for a link without one. -/
def riders (g : Graph) (l : Int) : ℚ :=
  (List.lookup l (Ledger g)).getD 0

/-- Same edge (same slot, key and attributes) with a load that did not
decrease. -/
def edgeLE (e e' : Edge) : Prop :=
  e'.u = e.u ∧ e'.v = e.v ∧ e'.key = e.key ∧ e'.link = e.link ∧ e'.cost = e.cost ∧
    e.total ≤ e'.total

/-- Pointwise load growth between two snapshots of the mutable graph: same
edge list with every load accumulator at least as large. -/
def GraphGE (g g' : Graph) : Prop :=
  List.Forall₂ edgeLE g g'

/-- C2 fixture streets: nodes 1 (A), 2 (B), 3 (C); directed edges A→B
(link 101) and B→C (link 102), cost 1 each. -/
def c2segs : List SegmentRecord :=
  [⟨some 1, some 2, 101, 1, 1⟩, ⟨some 2, some 3, 102, 1, 1⟩]

/-- C2 fixture route membership: route 7 uses links 101 and 102. -/
def c2routeSegs : List (Int × List Int) := [(7, [101, 102])]

/-- C2 fixture stops: stop 0 on link 101 (ons 10, offs 0), stop 1 on link
102 (ons 0, offs 10); direction totals ons 10, offs 10. -/
def c2rows : List MetricRow :=
  [⟨7, .inbound, 1, 10, 0, some 101⟩, ⟨7, .inbound, 2, 0, 10, some 102⟩]

/-- C1 fixture streets: parallel edges 1→2 with links 9 (key 0) and
8 (key 1), a second link-9 edge 3→4 enumerated later, and a route edge
2→5 with link 11. -/
def c1segs : List SegmentRecord :=
  [⟨some 1, some 2, 9, 1, 1⟩, ⟨some 1, some 2, 8, 1, 1⟩, ⟨some 3, some 4, 9, 1, 1⟩,
   ⟨some 2, some 5, 11, 1, 1⟩]

/-- C1 fixture route membership: route 7 uses links 8 and 11. -/
def c1routeSegs : List (Int × List Int) := [(7, [8, 11])]

/-- C1 fixture stops: stop 0 on link 8 (ons 10, offs 0), stop 1 on link 11
(ons 0, offs 10). -/
def c1rows : List MetricRow :=
  [⟨7, .inbound, 1, 10, 0, some 8⟩, ⟨7, .inbound, 2, 0, 10, some 11⟩]

/-- C3 fixture streets: parallel edges 1→2 carrying link 50 (key 0, in the
route set) and link 60 (key 1, not in the route set). -/
def c3segs : List SegmentRecord :=
  [⟨some 1, some 2, 50, 1, 1⟩, ⟨some 1, some 2, 60, 1, 1⟩]

/-- C3 fixture route membership: route 7 uses only link 50. -/
def c3routeSegs : List (Int × List Int) := [(7, [50])]

/-- C3 witness streets: no two parallel edges share a slot, so no slot
mixes in-set and out-of-set links. -/
def c3wsegs : List SegmentRecord :=
  [⟨some 1, some 2, 50, 1, 1⟩, ⟨some 2, some 3, 60, 1, 1⟩]

/-- C7 fixture streets: two disconnected directed edges, 1→2 (link 301)
and 3→4 (link 302). -/
def c7segs : List SegmentRecord :=
  [⟨some 1, some 2, 301, 1, 1⟩, ⟨some 3, some 4, 302, 1, 1⟩]

/-- C7 fixture route membership: route 7 uses links 301 and 302, which do
not touch. -/
def c7routeSegs : List (Int × List Int) := [(7, [301, 302])]

/-- C7 fixture stops: the very first stop pair of the run needs a path from
the link-301 edge to the link-302 edge, which does not exist. -/
def c7rows : List MetricRow :=
  [⟨7, .inbound, 1, 10, 0, some 301⟩, ⟨7, .inbound, 2, 0, 10, some 302⟩]

/-- C7 witness graph: the C7 fixture streets. -/
def c7G : Graph := CreateDirectedMultiGraph c7segs

/-- C7 witness direction context (route 7 inbound over the disconnected
fixture). -/
def c7ctx : DirCtx :=
  ⟨7, .inbound, [301, 302], (CreateSubgraph c7G 7 c7routeSegs).2.2, NodeLookup c7G, 10, 10⟩

/-- C7 witness pair state: a previous pair already resolved a path, so the
stale `tlinks` holds [301]. -/
def c7ps : PairSt :=
  ⟨⟨c7G, [], [], some [301]⟩, (CreateSubgraph c7G 7 c7routeSegs).2.1, 0⟩

/-- C8 fixture streets: directed path 1→2 (link 101), 2→3 (link 102). -/
def c8segs : List SegmentRecord :=
  [⟨some 1, some 2, 101, 1, 1⟩, ⟨some 2, some 3, 102, 1, 1⟩]

/-- C8 fixture routes: routes 7 and 8 both use links 101 and 102. -/
def c8routeSegs : List (Int × List Int) := [(7, [101, 102]), (8, [101, 102])]

/-- C8 fixture stops: route 7 references link 999, which no edge carries;
route 8 is well-formed. -/
def c8rows : List MetricRow :=
  [⟨7, .inbound, 1, 5, 0, some 999⟩, ⟨7, .inbound, 2, 0, 5, some 102⟩,
   ⟨8, .inbound, 1, 10, 0, some 101⟩, ⟨8, .inbound, 2, 0, 10, some 102⟩]

/-- Direction context used by the C8 witness: the context
`processDirection` builds for route 7 inbound of the C8 fixture. -/
def c8ctx : DirCtx :=
  ⟨7, .inbound, [101, 102],
    (CreateSubgraph (CreateDirectedMultiGraph c8segs) 7 c8routeSegs).2.2,
    NodeLookup (CreateDirectedMultiGraph c8segs), 5, 5⟩

/-- Initial pair state of route 7 inbound over the C8 fixture. -/
def c8ps : PairSt :=
  ⟨⟨CreateDirectedMultiGraph c8segs, [], [], none⟩,
    (CreateSubgraph (CreateDirectedMultiGraph c8segs) 7 c8routeSegs).2.1, 0⟩

/-- Small direction context for the C9 and C10 witnesses: route 1 inbound
over the single-edge graph 1→2 (link 101), totals 10/10. -/
def c9g : Graph := [⟨1, 2, 0, 101, 1, 0⟩]

/-- Direction context over `c9g` for concrete stop-pair steps. -/
def c9ctx : DirCtx :=
  ⟨1, .inbound, [101], ⟨[1, 2], c9g⟩, NodeLookup c9g, 10, 10⟩

/-- Initial pair state over `c9g`. -/
def c9ps : PairSt := ⟨⟨c9g, [], [], none⟩, NodeLookup c9g, 0⟩

/-- Pair state for the C10 witness whose route-local index is empty, so the
first lookup fails and the whole-graph fallback fires. -/
def c10ps : PairSt := ⟨⟨c9g, [], [], none⟩, [], 0⟩

/-- C6 counterexample graph: parallel edges 1→2 with link 0 (the sentinel
value, cost 5) and link 7 (cost 1). -/
def c6g : Graph := [⟨1, 2, 0, 0, 5, 0⟩, ⟨1, 2, 1, 7, 1, 0⟩]

/-- C6 witness graph: parallel edges 1→2 with nonzero links 101 (cost 5,
in the route set) and 102 (cost 1, not in the set). -/
def c6wg : Graph := [⟨1, 2, 0, 101, 5, 0⟩, ⟨1, 2, 1, 102, 1, 0⟩]

/-- Projection of an edge to its immutable attributes. -/
def edgeSig (e : Edge) : Int × Int × Int × ℚ := (e.u, e.v, e.link, e.cost)

theorem addRow_map (g : Graph) (row : SegmentRecord) :
    (addRow g row).map edgeSig = g.map edgeSig ++ specRecordEdges row := by
  rcases row with ⟨fn, tn, l, fl, c⟩
  unfold addRow specRecordEdges
  cases fn <;> cases tn <;> simp only []
  · simp
  · simp
  · simp
  · split_ifs <;> simp [addEdge, edgeSig]

theorem foldl_addRow_map (segs : List SegmentRecord) :
    ∀ g : Graph, (segs.foldl addRow g).map edgeSig =
      g.map edgeSig ++ segs.flatMap specRecordEdges := by
  induction segs with
  | nil => intro g; simp
  | cons row rest ih =>
      intro g
      simp only [List.foldl_cons, List.flatMap_cons]
      rw [ih (addRow g row), addRow_map, List.append_assoc]

theorem mem_addEdge (g : Graph) (u v l : Int) (c : ℚ) :
    ∀ e ∈ addEdge g u v l c, e ∈ g ∨ e.total = 0 := by
  intro e he
  simp only [addEdge, List.mem_append, List.mem_singleton] at he
  rcases he with h | rfl
  · exact Or.inl h
  · exact Or.inr rfl

theorem mem_addRow (g : Graph) (row : SegmentRecord) :
    ∀ e ∈ addRow g row, e ∈ g ∨ e.total = 0 := by
  rcases row with ⟨fn, tn, l, fl, c⟩
  unfold addRow
  cases fn <;> cases tn <;> simp only []
  · exact fun e he => Or.inl he
  · exact fun e he => Or.inl he
  · exact fun e he => Or.inl he
  · split_ifs <;> intro e he
    · exact mem_addEdge _ _ _ _ _ e he
    · exact mem_addEdge _ _ _ _ _ e he
    · rcases mem_addEdge _ _ _ _ _ e he with h | h
      · exact mem_addEdge _ _ _ _ _ e h
      · exact Or.inr h

theorem mem_foldl_addRow (segs : List SegmentRecord) :
    ∀ (g : Graph), ∀ e ∈ segs.foldl addRow g, e ∈ g ∨ e.total = 0 := by
  induction segs with
  | nil => intro g e he; exact Or.inl he
  | cons row rest ih =>
      intro g e he
      rcases ih (addRow g row) e he with h | h
      · exact mem_addRow g row e h
      · exact Or.inr h

/-- C4: graph construction skips records with a null endpoint; a
reverse-only record (flow 2) produces exactly the edge toNode→fromNode, a
forward-only one (flow 1) exactly fromNode→toNode, and any other flow code
both directed edges; every produced edge carries the record's link and
cost and starts with load 0. Stated as: the built edge list, projected to
its immutable attributes, is exactly the concatenation of the per-record
edge descriptions, and every built edge has load 0. -/
theorem C4_graph_builder (segs : List SegmentRecord) :
    (CreateDirectedMultiGraph segs).map edgeSig = segs.flatMap specRecordEdges ∧
      ∀ e ∈ CreateDirectedMultiGraph segs, e.total = 0 := by
  constructor
  · simpa using foldl_addRow_map segs []
  · intro e he
    rcases mem_foldl_addRow segs [] e he with h | h
    · simp at h
    · exact h

/-- C5: with the used divisor nonzero, `AdjustRidership` inflates the
smaller aggregate's side: when total_on > total_off it returns
(ons, offs + (total_on - total_off) * (offs / total_off)); otherwise
(ons + (total_off - total_on) * (ons / total_on), offs). -/
theorem C5_adjust_ridership (ons offs total_on total_off : ℚ)
    (h0 : 0 ≤ ons) (h1 : 0 ≤ offs) :
    (total_on > total_off → total_off ≠ 0 →
      AdjustRidership ons offs total_on total_off =
        some (ons, offs + (total_on - total_off) * (offs / total_off))) ∧
    (¬ total_on > total_off → total_on ≠ 0 →
      AdjustRidership ons offs total_on total_off =
        some (ons + (total_off - total_on) * (ons / total_on), offs)) := by
  unfold AdjustRidership
  constructor
  · intro hgt hnz
    rw [if_pos hgt, if_neg hnz]
  · intro hle hnz
    rw [if_neg hle, if_neg hnz]

/-- C5 witness: for total_on 100, total_off 80, ons 10, offs 8 the result
is adjusted_ons 10 and adjusted_offs 10. -/
theorem C5_witness : AdjustRidership 10 8 100 80 = some (10, 10) := by
  have h := (C5_adjust_ridership 10 8 100 80 (by norm_num) (by norm_num)).1
    (by norm_num) (by norm_num)
  rw [h]
  norm_num

theorem foldl_foldl_flatMap {α β γ : Type} (F : α → List β) (step : γ → β → γ) :
    ∀ (xs : List α) (init : γ),
      xs.foldl (fun acc x => (F x).foldl step acc) init =
        (xs.flatMap F).foldl step init := by
  intro xs
  induction xs with
  | nil => intro init; rfl
  | cons x rest ih =>
      intro init
      simp only [List.foldl_cons, List.flatMap_cons, List.foldl_append]
      exact ih _

theorem lookup_ledger_foldl (l : Int) (ws : List Edge) :
    ∀ init : List (Int × ℚ),
      List.lookup l (ws.foldl (fun dd k => (k.link, k.total) :: dd) init) =
        ((ws.filter (fun e => decide (e.link = l))).getLast?.map (fun e => e.total)).or
          (List.lookup l init) := by
  induction ws using List.reverseRecOn with
  | nil => intro init; simp
  | append_singleton ws e ih =>
      intro init
      rw [List.foldl_append]
      simp only [List.foldl_cons, List.foldl_nil, List.filter_append]
      by_cases h : e.link = l
      · have hl : (l == e.link) = true := by simp [h]
        rw [List.lookup_cons]
        simp only [hl, List.filter_cons, List.filter_nil, h]
        simp
      · have hl : (l == e.link) = false := by simp; exact fun hh => h hh.symm
        rw [List.lookup_cons]
        simp only [hl]
        have : (List.filter (fun e => decide (e.link = l)) [e]) = [] := by
          simp [List.filter_cons, h]
        rw [this, List.append_nil, ih]

/-- C1 amended: the final ledger maps each linkId to the load of the LAST
parallel-edge entry with that linkId in the edge scan of `main` (dict
assignment, last writer wins), not to the sum of the loads of all edges
carrying the linkId. -/
theorem C1_ledger_last_write (g : Graph) (l : Int) :
    List.lookup l (Ledger g) =
      ((g.flatMap (fun e => edgesBetween g e.u e.v)).filter
          (fun e => decide (e.link = l))).getLast?.map (fun e => e.total) := by
  unfold Ledger
  rw [foldl_foldl_flatMap (fun e => edgesBetween g e.u e.v)
      (fun dd k => (k.link, k.total) :: dd) g []]
  rw [lookup_ledger_foldl]
  simp

/-- C1 counterexample: a completed run (C1 fixture) whose ledger entry for
link 9 is 0 while the sum of the load accumulators of the edges carrying
link 9 is 10: the ledger does not sum loads grouped by linkId. -/
theorem C1_counterexample :
    (RidershipAlgorithm c1segs c1routeSegs c1rows).map
        (fun res => (List.lookup 9 (Ledger res.1),
          ((res.1.filter (fun e => decide (e.link = 9))).map (fun e => e.total)).sum)) =
      some (some 0, 10) ∧ some ((0:ℚ)) ≠ some ((10:ℚ)) := by
  constructor
  · with_unfolding_all rfl
  · norm_num

/-- C2 counterexample: on the spec's 3-node fixture the run completes with
ledger entries 10 for link 101 (edge A→B) and 0 for link 102 (edge B→C),
not the claimed 10 and 10. -/
theorem C2_counterexample :
    (RidershipAlgorithm c2segs c2routeSegs c2rows).map
        (fun res => (riders res.1 101, riders res.1 102)) = some (10, 0) ∧
      ((10:ℚ), (0:ℚ)) ≠ ((10:ℚ), (10:ℚ)) := by
  constructor
  · with_unfolding_all rfl
  · norm_num

/-- C2 amended: on the fixture the apportionment produces the ledger
{A→B: 10, B→C: 0} with no diagnostics: the target stop's edge is excluded
from the pair's link sequence (`include the source edge and exclude the
target edge`), and with only two stops no later pair loads it. -/
theorem C2_fixture_ledger :
    (RidershipAlgorithm c2segs c2routeSegs c2rows).map
        (fun res => (riders res.1 101, riders res.1 102, res.2.1, res.2.2)) =
      some (10, 0, [], []) := by
  with_unfolding_all rfl

/-- C7 counterexample: on the C7 fixture the very first stop pair of the
run raises NoPath on the subgraph (the two route links do not touch); the
local `tlinks` is still unbound, the fall-through raises NameError, and the
run aborts without producing a ledger. -/
theorem C7_counterexample :
    shortestPathSub (CreateSubgraph (CreateDirectedMultiGraph c7segs) 7 c7routeSegs).2.2
        1 3 = .noPath ∧
      RidershipAlgorithm c7segs c7routeSegs c7rows = none := by
  constructor
  · with_unfolding_all rfl
  · with_unfolding_all rfl

theorem exists_cont_ite (c : Prop) [Decidable c] (x y : PairSt) :
    ∃ ps', (if c then StepRes.cont x else StepRes.cont y) = .cont ps' := by
  by_cases h : c
  · exact ⟨x, by rw [if_pos h]⟩
  · exact ⟨y, by rw [if_neg h]⟩

/-- C7 amended: a NoPath failure on the subgraph is recovered locally only
when some earlier stop pair of the run has already bound `tlinks`: the code
falls through and reuses the stale value, and processing continues; when
the failure hits before any successful path resolution, `tlinks` is unbound
and the iteration is fatal (NameError), aborting the run. -/
theorem C7_no_path_recovery (ctx : DirCtx) (b : Bool) (ps : PairSt) (s0 s1 : StopRec)
    (sp tp : Int × Int)
    (hs : nodeFor ps.routeNodes s0.link = some sp)
    (ht : nodeFor ps.routeNodes s1.link = some tp)
    (hnp : shortestPathSub ctx.sub sp.1 tp.1 = .noPath) :
    processPair ctx b ps s0 s1 = applyLoads ctx b ps ps.routeNodes ps.st.tlinks s0 s1 ∧
    (ps.st.tlinks = none → processPair ctx b ps s0 s1 = .fatal) ∧
    (∀ tl0 es pns adj,
      ps.st.tlinks = some tl0 → s0.link = some es →
      (normTlinks es s1.link tl0).mapM (fun t => List.lookup t ctx.allNodes) = some pns →
      AdjustRidership s0.ons s0.offs ctx.total_on ctx.total_off = some adj →
      ∃ ps', processPair ctx b ps s0 s1 = .cont ps') := by
  have hmain : processPair ctx b ps s0 s1 =
      applyLoads ctx b ps ps.routeNodes ps.st.tlinks s0 s1 := by
    simp only [processPair, hs, ht, hnp]
  refine ⟨hmain, ?_, ?_⟩
  · intro hnone
    rw [hmain]
    unfold applyLoads
    rw [hnone]
  · intro tl0 es pns adj htl hes hpns hadj
    rw [hmain]
    rw [hes] at hs
    simp only [applyLoads, htl, hes, hs, hpns, hadj]
    exact exists_cont_ite _ _ _

/-- C7 witness: over the C7 fixture graph with a stale `tlinks` of [301],
the NoPath stop pair from link 301 to link 302 continues processing. -/
theorem C7_witness :
    ∃ ps', processPair c7ctx true c7ps ⟨some 301, 10, 0⟩ ⟨some 302, 0, 10⟩ = .cont ps' := by
  refine (C7_no_path_recovery c7ctx true c7ps ⟨some 301, 10, 0⟩ ⟨some 302, 0, 10⟩
      (1, 2) (3, 4) ?_ ?_ ?_).2.2 [301] 301 [(1, 2)] (10, 0) ?_ ?_ ?_ ?_
  · with_unfolding_all rfl
  · with_unfolding_all rfl
  · with_unfolding_all rfl
  · rfl
  · rfl
  · with_unfolding_all rfl
  · with_unfolding_all rfl

theorem processPair_missing (ctx : DirCtx) (b : Bool) (ps : PairSt) (s0 s1 : StopRec)
    (hfail :
      (nodeFor ps.routeNodes s0.link = none ∧ nodeFor ctx.allNodes s0.link = none) ∨
      (nodeFor ps.routeNodes s1.link = none ∧ nodeFor ctx.allNodes s1.link = none)) :
    processPair ctx b ps s0 s1 =
      .broke { ps.st with missing := ps.st.missing ++ [(ctx.r, ctx.d)] } ctx.allNodes := by
  rcases hfail with ⟨h1, h2⟩ | ⟨h1, h2⟩
  · cases hx : nodeFor ps.routeNodes s1.link <;>
      cases hy : nodeFor ctx.allNodes s1.link <;>
        simp only [processPair, processPairFallback, h1, h2, hx, hy]
  · cases hx : nodeFor ps.routeNodes s0.link <;>
      cases hy : nodeFor ctx.allNodes s0.link <;>
        simp only [processPair, processPairFallback, h1, h2, hx, hy]

theorem processPairs_break (ctx : DirCtx) (p : StopRec × StopRec)
    (post : List (StopRec × StopRec)) :
    ∀ (pre : List (StopRec × StopRec)) (b : Bool) (ps ps' : PairSt),
      processPairs ctx b ps pre = .cont ps' →
      ((nodeFor ps'.routeNodes p.1.link = none ∧ nodeFor ctx.allNodes p.1.link = none) ∨
       (nodeFor ps'.routeNodes p.2.link = none ∧ nodeFor ctx.allNodes p.2.link = none)) →
      processPairs ctx b ps (pre ++ p :: post) =
        .broke { ps'.st with missing := ps'.st.missing ++ [(ctx.r, ctx.d)] }
          ctx.allNodes := by
  intro pre
  induction pre with
  | nil =>
      intro b ps ps' hpre hfail
      cases hpre
      simp only [List.nil_append, processPairs]
      rw [processPair_missing ctx b ps p.1 p.2 hfail]
  | cons q rest ih =>
      intro b ps ps' hpre hfail
      simp only [processPairs, List.cons_append] at hpre ⊢
      cases hq : processPair ctx b ps q.1 q.2 with
      | cont ps₁ =>
          rw [hq] at hpre
          exact ih false ps₁ ps' hpre hfail
      | broke st rn =>
          rw [hq] at hpre
          exact StepRes.noConfusion hpre
      | fatal =>
          rw [hq] at hpre
          exact StepRes.noConfusion hpre

/-- C8: a stop pair whose source or target linkId resolves in neither the
route-local node index nor the whole-graph index makes the iteration append
(route, direction) to the missing-link report and break out of the stop
loop, discarding the remaining pairs of that direction without touching the
graph further; and a direction ending in such a break is a normal (non
fatal) outcome of `processDirection`, so the remaining directions and
routes keep processing from the recorded state. -/
theorem C8_missing_link (ctx : DirCtx) (b : Bool) (ps ps' : PairSt)
    (pre post : List (StopRec × StopRec)) (p : StopRec × StopRec)
    (hpre : processPairs ctx b ps pre = .cont ps')
    (hfail :
      (nodeFor ps'.routeNodes p.1.link = none ∧ nodeFor ctx.allNodes p.1.link = none) ∨
      (nodeFor ps'.routeNodes p.2.link = none ∧ nodeFor ctx.allNodes p.2.link = none)) :
    processPairs ctx b ps (pre ++ p :: post) =
      .broke { ps'.st with missing := ps'.st.missing ++ [(ctx.r, ctx.d)] } ctx.allNodes ∧
    ∀ (rows : List MetricRow) (routeLinks : List Int) (sub : Subgraph)
      (allN : NodeIndex) (r : Int) (d : Dir) (st : AlgState) (rn : NodeIndex)
      (st₁ : AlgState) (rn₁ : NodeIndex),
      processPairs ⟨r, d, routeLinks, sub, allN, totalOnsFor rows d r, totalOffsFor rows d r⟩
          true ⟨st, rn, 0⟩ ((stopsFor rows d r).zip (stopsFor rows d r).tail) =
        .broke st₁ rn₁ →
      processDirection rows routeLinks sub allN r d st rn = some (st₁, rn₁) := by
  constructor
  · exact processPairs_break ctx p post pre b ps ps' hpre hfail
  · intro rows routeLinks sub allN r d st rn st₁ rn₁ h
    simp only [processDirection, h]

theorem edgeLE_refl (e : Edge) : edgeLE e e :=
  ⟨rfl, rfl, rfl, rfl, rfl, le_refl _⟩

theorem edgeLE_trans {a b c : Edge} (h1 : edgeLE a b) (h2 : edgeLE b c) : edgeLE a c := by
  obtain ⟨u1, v1, k1, l1, c1, t1⟩ := h1
  obtain ⟨u2, v2, k2, l2, c2, t2⟩ := h2
  exact ⟨u2.trans u1, v2.trans v1, k2.trans k1, l2.trans l1, c2.trans c1, t1.trans t2⟩

theorem graphGE_refl (g : Graph) : GraphGE g g := by
  induction g with
  | nil => exact List.Forall₂.nil
  | cons e t ih => exact List.Forall₂.cons (edgeLE_refl e) ih

theorem graphGE_trans : ∀ {g₁ g₂ g₃ : Graph}, GraphGE g₁ g₂ → GraphGE g₂ g₃ → GraphGE g₁ g₃ := by
  intro g₁ g₂ g₃ h12
  induction h12 generalizing g₃ with
  | nil => intro h23; cases h23; exact List.Forall₂.nil
  | cons h t ih =>
      intro h23
      cases h23 with
      | cons h' t' => exact List.Forall₂.cons (edgeLE_trans h h') (ih t')

theorem updateTotal_ge (g : Graph) (u v : Int) (d : ℚ) (hd : 0 ≤ d) :
    GraphGE g (updateTotal g u v d) := by
  induction g with
  | nil => exact List.Forall₂.nil
  | cons e t ih =>
      refine List.Forall₂.cons ?_ ih
      by_cases h : e.u = u ∧ e.v = v ∧ e.key = 0
      · simp only [updateTotal, if_pos h]
        exact ⟨rfl, rfl, rfl, rfl, rfl, le_add_of_nonneg_right hd⟩
      · simp only [updateTotal, if_neg h]
        exact edgeLE_refl e

theorem foldl_updateTotal_ge (d : ℚ) (hd : 0 ≤ d) :
    ∀ (pns : List (Int × Int)) (g : Graph),
      GraphGE g (pns.foldl (fun g p => updateTotal g p.1 p.2 d) g) := by
  intro pns
  induction pns with
  | nil => intro g; exact graphGE_refl g
  | cons p t ih =>
      intro g
      simp only [List.foldl_cons]
      exact graphGE_trans (updateTotal_ge g p.1 p.2 d hd) (ih _)

theorem adjust_nonneg (ons offs ton toff : ℚ) (h2 : 0 ≤ ons) (h3 : 0 ≤ offs)
    (h4 : 0 < ton) (h5 : 0 < toff) :
    ∀ adj, AdjustRidership ons offs ton toff = some adj → 0 ≤ adj.1 ∧ 0 ≤ adj.2 := by
  intro adj h
  unfold AdjustRidership at h
  by_cases hgt : ton > toff
  · rw [if_pos hgt, if_neg h5.ne'] at h
    injection h with h
    subst h
    exact ⟨h2, add_nonneg h3 (mul_nonneg (sub_nonneg.2 hgt.le) (div_nonneg h3 h5.le))⟩
  · rw [if_neg hgt, if_neg h4.ne'] at h
    injection h with h
    subst h
    exact ⟨add_nonneg h2 (mul_nonneg (sub_nonneg.2 (not_lt.1 hgt)) (div_nonneg h2 h4.le)),
      h3⟩

theorem cont_ite_eq_cont (c : Prop) [Decidable c] (x y ps' : PairSt)
    (h : (if c then StepRes.cont x else StepRes.cont y) = .cont ps') :
    (c ∧ ps' = x) ∨ (¬c ∧ ps' = y) := by
  by_cases hc : c
  · rw [if_pos hc] at h
    exact Or.inl ⟨hc, (StepRes.cont.inj h).symm⟩
  · rw [if_neg hc] at h
    exact Or.inr ⟨hc, (StepRes.cont.inj h).symm⟩

theorem cont_ite_ne_broke (c : Prop) [Decidable c] (x y : PairSt) (st : AlgState)
    (rn : NodeIndex) : (if c then StepRes.cont x else StepRes.cont y) ≠ .broke st rn := by
  by_cases h : c
  · rw [if_pos h]
    exact fun hh => StepRes.noConfusion hh
  · rw [if_neg h]
    exact fun hh => StepRes.noConfusion hh

theorem applyLoads_mono (ctx : DirCtx) (b : Bool) (ps : PairSt) (rn : NodeIndex)
    (tl? : Option (List Int)) (s0 s1 : StopRec)
    (h1 : 0 ≤ ps.total) (h2 : 0 ≤ s0.ons) (h3 : 0 ≤ s0.offs)
    (h4 : 0 < ctx.total_on) (h5 : 0 < ctx.total_off) :
    ∀ ps', applyLoads ctx b ps rn tl? s0 s1 = .cont ps' →
      GraphGE ps.st.G ps'.st.G ∧ 0 ≤ ps'.total := by
  intro ps' h
  rcases tl? with _ | tl
  · exact StepRes.noConfusion h
  cases hes : s0.link with
  | none => simp only [applyLoads, hes] at h; exact StepRes.noConfusion h
  | some es =>
    cases hsp : nodeFor rn (some es) with
    | none => simp only [applyLoads, hes, hsp] at h; exact StepRes.noConfusion h
    | some spair =>
      cases hpns : (normTlinks es s1.link tl).mapM (fun t => List.lookup t ctx.allNodes) with
      | none => simp only [applyLoads, hes, hsp, hpns] at h; exact StepRes.noConfusion h
      | some pns =>
        cases hadj : AdjustRidership s0.ons s0.offs ctx.total_on ctx.total_off with
        | none => simp only [applyLoads, hes, hsp, hpns, hadj] at h; exact StepRes.noConfusion h
        | some adj =>
          simp only [applyLoads, hes, hsp, hpns, hadj] at h
          obtain ⟨ha1, ha2⟩ := adjust_nonneg _ _ _ _ h2 h3 h4 h5 adj hadj
          have ht1 : 0 ≤ (if b = true then ps.total + adj.1 + adj.2
              else ps.total + adj.1) := by
            split
            · exact add_nonneg (add_nonneg h1 ha1) ha2
            · exact add_nonneg h1 ha1
          rcases cont_ite_eq_cont _ _ _ _ h with ⟨hc, rfl⟩ | ⟨hc, rfl⟩
          · have ht2 : 0 ≤ (if ctx.total_on > ctx.total_off then ctx.total_on
                else ctx.total_off) := by
              split
              · exact h4.le
              · exact h5.le
            exact ⟨graphGE_trans (updateTotal_ge _ _ _ _ ht1)
                (foldl_updateTotal_ge _ ht2 _ _), ht2⟩
          · have ht2 : 0 ≤ (if b = true then ps.total + adj.1 + adj.2
                else ps.total + adj.1) - adj.2 := sub_nonneg.2 (not_lt.1 hc)
            exact ⟨graphGE_trans (updateTotal_ge _ _ _ _ ht1)
                (foldl_updateTotal_ge _ ht2 _ _), ht2⟩

theorem applyLoads_not_broke (ctx : DirCtx) (b : Bool) (ps : PairSt) (rn : NodeIndex)
    (tl? : Option (List Int)) (s0 s1 : StopRec) :
    ∀ st' rn', applyLoads ctx b ps rn tl? s0 s1 ≠ .broke st' rn' := by
  intro st' rn' h
  rcases tl? with _ | tl
  · exact StepRes.noConfusion h
  cases hes : s0.link with
  | none => simp only [applyLoads, hes] at h; exact StepRes.noConfusion h
  | some es =>
    cases hsp : nodeFor rn (some es) with
    | none => simp only [applyLoads, hes, hsp] at h; exact StepRes.noConfusion h
    | some spair =>
      cases hpns : (normTlinks es s1.link tl).mapM (fun t => List.lookup t ctx.allNodes) with
      | none => simp only [applyLoads, hes, hsp, hpns] at h; exact StepRes.noConfusion h
      | some pns =>
        cases hadj : AdjustRidership s0.ons s0.offs ctx.total_on ctx.total_off with
        | none => simp only [applyLoads, hes, hsp, hpns, hadj] at h; exact StepRes.noConfusion h
        | some adj =>
          simp only [applyLoads, hes, hsp, hpns, hadj] at h
          exact cont_ite_ne_broke _ _ _ _ _ h

theorem processPair_cases (ctx : DirCtx) (b : Bool) (ps : PairSt) (s0 s1 : StopRec) :
    (∃ tl?, processPair ctx b ps s0 s1 = applyLoads ctx b ps ps.routeNodes tl? s0 s1) ∨
    (∃ tl?, processPair ctx b ps s0 s1 = applyLoads ctx b ps ctx.allNodes tl? s0 s1) ∨
    processPair ctx b ps s0 s1 =
      .broke { ps.st with missing := ps.st.missing ++ [(ctx.r, ctx.d)] } ctx.allNodes ∨
    processPair ctx b ps s0 s1 = .fatal := by
  cases hA : nodeFor ps.routeNodes s0.link with
  | some sp =>
    cases hB : nodeFor ps.routeNodes s1.link with
    | some tp =>
      cases hC : shortestPathSub ctx.sub sp.1 tp.1 with
      | found path =>
          refine Or.inl ⟨some (GetTLINK ps.st.G path ctx.routeLinks), ?_⟩
          simp only [processPair, hA, hB, hC]
      | noPath =>
          refine Or.inl ⟨ps.st.tlinks, ?_⟩
          simp only [processPair, hA, hB, hC]
      | keyErr =>
        cases hD : nodeFor ctx.allNodes s0.link with
        | some sq =>
          cases hE : nodeFor ctx.allNodes s1.link with
          | some tq =>
            cases hF : shortestPathFull ps.st.G sq.1 tq.1 with
            | found path =>
                refine Or.inr (Or.inl ⟨some (GetTLINK ps.st.G path ctx.routeLinks), ?_⟩)
                simp only [processPair, processPairFallback, hA, hB, hC, hD, hE, hF]
            | noPath =>
                refine Or.inr (Or.inl ⟨ps.st.tlinks, ?_⟩)
                simp only [processPair, processPairFallback, hA, hB, hC, hD, hE, hF]
            | keyErr =>
                refine Or.inr (Or.inr (Or.inr ?_))
                simp only [processPair, processPairFallback, hA, hB, hC, hD, hE, hF]
          | none =>
              refine Or.inr (Or.inr (Or.inl ?_))
              simp only [processPair, processPairFallback, hA, hB, hC, hD, hE]
        | none =>
            refine Or.inr (Or.inr (Or.inl ?_))
            simp only [processPair, processPairFallback, hA, hB, hC, hD]
    | none =>
      cases hD : nodeFor ctx.allNodes s0.link with
      | some sq =>
        cases hE : nodeFor ctx.allNodes s1.link with
        | some tq =>
          cases hF : shortestPathFull ps.st.G sq.1 tq.1 with
          | found path =>
              refine Or.inr (Or.inl ⟨some (GetTLINK ps.st.G path ctx.routeLinks), ?_⟩)
              simp only [processPair, processPairFallback, hA, hB, hD, hE, hF]
          | noPath =>
              refine Or.inr (Or.inl ⟨ps.st.tlinks, ?_⟩)
              simp only [processPair, processPairFallback, hA, hB, hD, hE, hF]
          | keyErr =>
              refine Or.inr (Or.inr (Or.inr ?_))
              simp only [processPair, processPairFallback, hA, hB, hD, hE, hF]
        | none =>
            refine Or.inr (Or.inr (Or.inl ?_))
            simp only [processPair, processPairFallback, hA, hB, hD, hE]
      | none =>
          refine Or.inr (Or.inr (Or.inl ?_))
          simp only [processPair, processPairFallback, hA, hB, hD]
  | none =>
    cases hD : nodeFor ctx.allNodes s0.link with
    | some sq =>
      cases hE : nodeFor ctx.allNodes s1.link with
      | some tq =>
        cases hF : shortestPathFull ps.st.G sq.1 tq.1 with
        | found path =>
            refine Or.inr (Or.inl ⟨some (GetTLINK ps.st.G path ctx.routeLinks), ?_⟩)
            simp only [processPair, processPairFallback, hA, hD, hE, hF]
        | noPath =>
            refine Or.inr (Or.inl ⟨ps.st.tlinks, ?_⟩)
            simp only [processPair, processPairFallback, hA, hD, hE, hF]
        | keyErr =>
            refine Or.inr (Or.inr (Or.inr ?_))
            simp only [processPair, processPairFallback, hA, hD, hE, hF]
      | none =>
          refine Or.inr (Or.inr (Or.inl ?_))
          simp only [processPair, processPairFallback, hA, hD, hE]
    | none =>
        refine Or.inr (Or.inr (Or.inl ?_))
        simp only [processPair, processPairFallback, hA, hD]

/-- C9: with nonnegative boardings and alightings and positive direction
totals, one stop-pair iteration never decreases any edge's load
accumulator: a continuing iteration yields a pointwise-grown graph and a
nonnegative running total (the bad-data clamp replaces only the running
total), and a missing-link break leaves the graph untouched. -/
theorem C9_load_monotone (ctx : DirCtx) (b : Bool) (ps : PairSt) (s0 s1 : StopRec)
    (h1 : 0 ≤ ps.total) (h2 : 0 ≤ s0.ons) (h3 : 0 ≤ s0.offs)
    (h4 : 0 < ctx.total_on) (h5 : 0 < ctx.total_off) :
    (∀ ps', processPair ctx b ps s0 s1 = .cont ps' →
      GraphGE ps.st.G ps'.st.G ∧ 0 ≤ ps'.total) ∧
    (∀ st' rn', processPair ctx b ps s0 s1 = .broke st' rn' → GraphGE ps.st.G st'.G) := by
  rcases processPair_cases ctx b ps s0 s1 with ⟨tl?, heq⟩ | ⟨tl?, heq⟩ | heq | heq
  · constructor
    · intro ps' h
      exact applyLoads_mono ctx b ps ps.routeNodes tl? s0 s1 h1 h2 h3 h4 h5 ps' (heq ▸ h)
    · intro st' rn' h
      exact absurd (heq ▸ h)
        (applyLoads_not_broke ctx b ps ps.routeNodes tl? s0 s1 st' rn')
  · constructor
    · intro ps' h
      exact applyLoads_mono ctx b ps ctx.allNodes tl? s0 s1 h1 h2 h3 h4 h5 ps' (heq ▸ h)
    · intro st' rn' h
      exact absurd (heq ▸ h)
        (applyLoads_not_broke ctx b ps ctx.allNodes tl? s0 s1 st' rn')
  · constructor
    · intro ps' h
      rw [heq] at h
      exact StepRes.noConfusion h
    · intro st' rn' h
      rw [heq] at h
      cases h
      exact graphGE_refl ps.st.G
  · constructor
    · intro ps' h
      rw [heq] at h
      exact StepRes.noConfusion h
    · intro st' rn' h
      rw [heq] at h
      exact StepRes.noConfusion h

/-- C9 witness: a concrete continuing stop pair over the one-edge graph
grows the single load accumulator from 0 to 5. -/
theorem C9_witness :
    ∃ ps', processPair c9ctx true c9ps ⟨some 101, 5, 0⟩ ⟨some 101, 0, 5⟩ = .cont ps' ∧
      GraphGE c9ps.st.G ps'.st.G ∧ 0 ≤ ps'.total := by
  have hstep : processPair c9ctx true c9ps ⟨some 101, 5, 0⟩ ⟨some 101, 0, 5⟩ =
      .cont ⟨⟨[⟨1, 2, 0, 101, 1, 5⟩], [], [], some []⟩, NodeLookup c9g, 5⟩ := by
    with_unfolding_all rfl
  refine ⟨_, hstep, ?_⟩
  exact (C9_load_monotone c9ctx true c9ps ⟨some 101, 5, 0⟩ ⟨some 101, 0, 5⟩
      (by norm_num [c9ps]) (by norm_num) (by norm_num) (by norm_num [c9ctx])
      (by norm_num [c9ctx])).1 _ hstep

theorem applyLoads_routeNodes (ctx : DirCtx) (b : Bool) (ps : PairSt) (rn : NodeIndex)
    (tl? : Option (List Int)) (s0 s1 : StopRec) :
    ∀ ps', applyLoads ctx b ps rn tl? s0 s1 = .cont ps' → ps'.routeNodes = rn := by
  intro ps' h
  rcases tl? with _ | tl
  · exact StepRes.noConfusion h
  cases hes : s0.link with
  | none => simp only [applyLoads, hes] at h; exact StepRes.noConfusion h
  | some es =>
    cases hsp : nodeFor rn (some es) with
    | none => simp only [applyLoads, hes, hsp] at h; exact StepRes.noConfusion h
    | some spair =>
      cases hpns : (normTlinks es s1.link tl).mapM (fun t => List.lookup t ctx.allNodes) with
      | none => simp only [applyLoads, hes, hsp, hpns] at h; exact StepRes.noConfusion h
      | some pns =>
        cases hadj : AdjustRidership s0.ons s0.offs ctx.total_on ctx.total_off with
        | none =>
            simp only [applyLoads, hes, hsp, hpns, hadj] at h
            exact StepRes.noConfusion h
        | some adj =>
          simp only [applyLoads, hes, hsp, hpns, hadj] at h
          rcases cont_ite_eq_cont _ _ _ _ h with ⟨_, rfl⟩ | ⟨_, rfl⟩
          · rfl
          · rfl

theorem processPair_trigger (ctx : DirCtx) (b : Bool) (ps : PairSt) (s0 s1 : StopRec)
    (htrig :
      nodeFor ps.routeNodes s0.link = none ∨ nodeFor ps.routeNodes s1.link = none) :
    processPair ctx b ps s0 s1 = processPairFallback ctx b ps s0 s1 := by
  rcases htrig with h | h
  · cases hB : nodeFor ps.routeNodes s1.link <;> simp only [processPair, h, hB]
  · cases hA : nodeFor ps.routeNodes s0.link <;> simp only [processPair, h, hA]

theorem processPairFallback_routeNodes (ctx : DirCtx) (b : Bool) (ps : PairSt)
    (s0 s1 : StopRec) :
    (∀ ps', processPairFallback ctx b ps s0 s1 = .cont ps' →
      ps'.routeNodes = ctx.allNodes) ∧
    (∀ st' rn', processPairFallback ctx b ps s0 s1 = .broke st' rn' →
      rn' = ctx.allNodes) := by
  cases hD : nodeFor ctx.allNodes s0.link with
  | some sq =>
    cases hE : nodeFor ctx.allNodes s1.link with
    | some tq =>
      cases hF : shortestPathFull ps.st.G sq.1 tq.1 with
      | found path =>
          constructor
          · intro ps' h
            simp only [processPairFallback, hD, hE, hF] at h
            exact applyLoads_routeNodes ctx b ps ctx.allNodes _ s0 s1 ps' h
          · intro st' rn' h
            simp only [processPairFallback, hD, hE, hF] at h
            exact absurd h (applyLoads_not_broke ctx b ps ctx.allNodes _ s0 s1 st' rn')
      | noPath =>
          constructor
          · intro ps' h
            simp only [processPairFallback, hD, hE, hF] at h
            exact applyLoads_routeNodes ctx b ps ctx.allNodes _ s0 s1 ps' h
          · intro st' rn' h
            simp only [processPairFallback, hD, hE, hF] at h
            exact absurd h (applyLoads_not_broke ctx b ps ctx.allNodes _ s0 s1 st' rn')
      | keyErr =>
          constructor
          · intro ps' h
            simp only [processPairFallback, hD, hE, hF] at h
            exact StepRes.noConfusion h
          · intro st' rn' h
            simp only [processPairFallback, hD, hE, hF] at h
            exact StepRes.noConfusion h
    | none =>
        constructor
        · intro ps' h
          simp only [processPairFallback, hD, hE] at h
          exact StepRes.noConfusion h
        · intro st' rn' h
          simp only [processPairFallback, hD, hE] at h
          cases h
          rfl
  | none =>
    cases hE : nodeFor ctx.allNodes s1.link with
    | some tq =>
        constructor
        · intro ps' h
          simp only [processPairFallback, hD, hE] at h
          exact StepRes.noConfusion h
        · intro st' rn' h
          simp only [processPairFallback, hD, hE] at h
          cases h
          rfl
    | none =>
        constructor
        · intro ps' h
          simp only [processPairFallback, hD, hE] at h
          exact StepRes.noConfusion h
        · intro st' rn' h
          simp only [processPairFallback, hD, hE] at h
          cases h
          rfl

theorem processPair_routeNodes (ctx : DirCtx) (b : Bool) (ps : PairSt) (s0 s1 : StopRec) :
    (∀ ps', processPair ctx b ps s0 s1 = .cont ps' →
      ps'.routeNodes = ps.routeNodes ∨ ps'.routeNodes = ctx.allNodes) ∧
    (∀ st' rn', processPair ctx b ps s0 s1 = .broke st' rn' → rn' = ctx.allNodes) := by
  rcases processPair_cases ctx b ps s0 s1 with ⟨tl?, heq⟩ | ⟨tl?, heq⟩ | heq | heq
  · constructor
    · intro ps' h
      exact Or.inl (applyLoads_routeNodes _ _ _ _ _ _ _ ps' (heq ▸ h))
    · intro st' rn' h
      exact absurd (heq ▸ h) (applyLoads_not_broke _ _ _ _ _ _ _ st' rn')
  · constructor
    · intro ps' h
      exact Or.inr (applyLoads_routeNodes _ _ _ _ _ _ _ ps' (heq ▸ h))
    · intro st' rn' h
      exact absurd (heq ▸ h) (applyLoads_not_broke _ _ _ _ _ _ _ st' rn')
  · constructor
    · intro ps' h
      rw [heq] at h
      exact StepRes.noConfusion h
    · intro st' rn' h
      rw [heq] at h
      cases h
      rfl
  · constructor
    · intro ps' h
      rw [heq] at h
      exact StepRes.noConfusion h
    · intro st' rn' h
      rw [heq] at h
      exact StepRes.noConfusion h

theorem processPairs_routeNodes (ctx : DirCtx) :
    ∀ (pairs : List (StopRec × StopRec)) (b : Bool) (ps : PairSt),
      ps.routeNodes = ctx.allNodes →
      (∀ ps', processPairs ctx b ps pairs = .cont ps' → ps'.routeNodes = ctx.allNodes) ∧
      (∀ st' rn', processPairs ctx b ps pairs = .broke st' rn' → rn' = ctx.allNodes) := by
  intro pairs
  induction pairs with
  | nil =>
      intro b ps hrn
      constructor
      · intro ps' h
        cases h
        exact hrn
      · intro st' rn' h
        exact StepRes.noConfusion h
  | cons p rest ih =>
      intro b ps hrn
      have hnext : ∀ ps₁, processPair ctx b ps p.1 p.2 = .cont ps₁ →
          ps₁.routeNodes = ctx.allNodes := by
        intro ps₁ hq
        rcases (processPair_routeNodes ctx b ps p.1 p.2).1 ps₁ hq with hh | hh
        · rw [hh, hrn]
        · exact hh
      constructor
      · intro ps' h
        simp only [processPairs] at h
        cases hq : processPair ctx b ps p.1 p.2 with
        | cont ps₁ =>
            rw [hq] at h
            exact (ih false ps₁ (hnext ps₁ hq)).1 ps' h
        | broke st rn =>
            rw [hq] at h
            exact StepRes.noConfusion h
        | fatal =>
            rw [hq] at h
            exact StepRes.noConfusion h
      · intro st' rn' h
        simp only [processPairs] at h
        cases hq : processPair ctx b ps p.1 p.2 with
        | cont ps₁ =>
            rw [hq] at h
            exact (ih false ps₁ (hnext ps₁ hq)).2 st' rn' h
        | broke st rn =>
            rw [hq] at h
            cases h
            exact (processPair_routeNodes ctx b ps p.1 p.2).2 _ _ hq
        | fatal =>
            rw [hq] at h
            exact StepRes.noConfusion h

/-- C10 (implicit): once a route-local node lookup fails for a stop pair
and the whole-graph fallback runs, the local `dictRouteNodes` is rebound to
the whole-graph index in every non-fatal outcome; a state whose index is
already the whole-graph index keeps it through all remaining stop pairs of
the direction (and, because `processRoute` threads the binding from the
inbound into the outbound direction, through the rest of the route); the
route-local index is rebuilt only when the next route's subgraph is
created, as the unfolding of `processRoute` shows. -/
theorem C10_fallback_index_swap :
    (∀ (ctx : DirCtx) (b : Bool) (ps : PairSt) (s0 s1 : StopRec),
      (nodeFor ps.routeNodes s0.link = none ∨ nodeFor ps.routeNodes s1.link = none) →
      (∀ ps', processPair ctx b ps s0 s1 = .cont ps' → ps'.routeNodes = ctx.allNodes) ∧
      (∀ st' rn', processPair ctx b ps s0 s1 = .broke st' rn' → rn' = ctx.allNodes)) ∧
    (∀ (ctx : DirCtx) (b : Bool) (ps : PairSt) (pairs : List (StopRec × StopRec)),
      ps.routeNodes = ctx.allNodes →
      (∀ ps', processPairs ctx b ps pairs = .cont ps' → ps'.routeNodes = ctx.allNodes) ∧
      (∀ st' rn', processPairs ctx b ps pairs = .broke st' rn' → rn' = ctx.allNodes)) ∧
    (∀ (rows : List MetricRow) (rs : List (Int × List Int)) (allN : NodeIndex)
      (st : AlgState) (r : Int),
      processRoute rows rs allN st r =
        (match processDirection rows (CreateSubgraph st.G r rs).1
            (CreateSubgraph st.G r rs).2.2 allN r .inbound st
            (CreateSubgraph st.G r rs).2.1 with
        | none => none
        | some (st1, rn1) =>
          match processDirection rows (CreateSubgraph st.G r rs).1
              (CreateSubgraph st.G r rs).2.2 allN r .outbound st1 rn1 with
          | none => none
          | some (st2, _) => some st2)) := by
  refine ⟨?_, ?_, ?_⟩
  · intro ctx b ps s0 s1 htrig
    have heq := processPair_trigger ctx b ps s0 s1 htrig
    constructor
    · intro ps' h
      exact (processPairFallback_routeNodes ctx b ps s0 s1).1 ps' (heq ▸ h)
    · intro st' rn' h
      exact (processPairFallback_routeNodes ctx b ps s0 s1).2 st' rn' (heq ▸ h)
  · intro ctx b ps pairs hrn
    exact processPairs_routeNodes ctx pairs b ps hrn
  · intro rows rs allN st r
    rfl

/-- C10 witness: with an empty route-local index the first lookup fails,
the fallback runs on the whole graph, and the continuing state's index is
the whole-graph index. -/
theorem C10_witness :
    processPair c9ctx true c10ps ⟨some 101, 5, 0⟩ ⟨some 101, 0, 5⟩ =
      .cont ⟨⟨[⟨1, 2, 0, 101, 1, 5⟩], [], [], some []⟩, NodeLookup c9g, 5⟩ ∧
    (⟨⟨[⟨1, 2, 0, 101, 1, 5⟩], [], [], some []⟩, NodeLookup c9g, 5⟩ : PairSt).routeNodes =
      c9ctx.allNodes := by
  have hstep : processPair c9ctx true c10ps ⟨some 101, 5, 0⟩ ⟨some 101, 0, 5⟩ =
      .cont ⟨⟨[⟨1, 2, 0, 101, 1, 5⟩], [], [], some []⟩, NodeLookup c9g, 5⟩ := by
    with_unfolding_all rfl
  refine ⟨hstep, ?_⟩
  exact (C10_fallback_index_swap.1 c9ctx true c10ps ⟨some 101, 5, 0⟩ ⟨some 101, 0, 5⟩
      (Or.inl (by with_unfolding_all rfl))).1 _ hstep

/-- C8 witness: route 7 inbound of the C8 fixture references link 999,
absent from both indexes; the first stop pair breaks and records the
missing link. -/
theorem C8_witness :
    processPairs c8ctx true c8ps [(⟨some 999, 5, 0⟩, ⟨some 102, 0, 5⟩)] =
      .broke { c8ps.st with missing := c8ps.st.missing ++ [(7, Dir.inbound)] }
        c8ctx.allNodes := by
  have h := (C8_missing_link c8ctx true c8ps c8ps [] []
      (⟨some 999, 5, 0⟩, ⟨some 102, 0, 5⟩) rfl
      (Or.inl ⟨by with_unfolding_all rfl, by with_unfolding_all rfl⟩)).1
  exact h

theorem foldl_inset (S : List Int) :
    ∀ (es : List Edge) (t0 : Int),
      ((∀ e ∈ es, e.link ∉ S) →
        es.foldl (fun t e => if e.link ∈ S then e.link else t) t0 = t0) ∧
      ((∃ e ∈ es, e.link ∈ S) →
        ∃ e ∈ es, es.foldl (fun t e => if e.link ∈ S then e.link else t) t0 = e.link ∧
          e.link ∈ S) := by
  intro es
  induction es with
  | nil =>
      intro t0
      exact ⟨fun _ => rfl, fun ⟨e, he, _⟩ => absurd he (List.not_mem_nil e)⟩
  | cons a es ih =>
      intro t0
      constructor
      · intro hout
        simp only [List.foldl_cons, if_neg (hout a (List.mem_cons_self a es))]
        exact (ih t0).1 (fun e he => hout e (List.mem_cons_of_mem a he))
      · intro hin
        simp only [List.foldl_cons]
        by_cases hS : ∃ e ∈ es, e.link ∈ S
        · obtain ⟨e, he, heq, hmem⟩ := (ih (if a.link ∈ S then a.link else t0)).2 hS
          exact ⟨e, List.mem_cons_of_mem a he, heq, hmem⟩
        · have hATS : a.link ∈ S := by
            obtain ⟨e, he, hmem⟩ := hin
            rcases List.mem_cons.1 he with rfl | he'
            · exact hmem
            · exact absurd ⟨e, he', hmem⟩ hS
          refine ⟨a, List.mem_cons_self a es, ?_, hATS⟩
          rw [if_pos hATS]
          exact (ih a.link).1 (fun e he hmem => hS ⟨e, he, hmem⟩)

theorem foldl_mincost :
    ∀ (es : List Edge) (c0 : ℚ) (t0 : Int),
      (es.foldl (fun ct e => if e.cost ≤ ct.1 then (e.cost, e.link) else ct) (c0, t0)).1 ≤
        c0 ∧
      (∀ e ∈ es,
        (es.foldl (fun ct e => if e.cost ≤ ct.1 then (e.cost, e.link) else ct) (c0, t0)).1 ≤
          e.cost) ∧
      ((es.foldl (fun ct e => if e.cost ≤ ct.1 then (e.cost, e.link) else ct) (c0, t0)) =
          (c0, t0) ∨
        ∃ e ∈ es,
          (es.foldl (fun ct e => if e.cost ≤ ct.1 then (e.cost, e.link) else ct) (c0, t0)) =
            (e.cost, e.link)) := by
  intro es
  induction es with
  | nil =>
      intro c0 t0
      exact ⟨le_refl c0, by simp, Or.inl rfl⟩
  | cons a es ih =>
      intro c0 t0
      simp only [List.foldl_cons]
      by_cases ha : a.cost ≤ c0
      · rw [if_pos ha]
        obtain ⟨ih1, ih2, ih3⟩ := ih a.cost a.link
        refine ⟨ih1.trans ha, ?_, ?_⟩
        · intro e he
          rcases List.mem_cons.1 he with rfl | he'
          · exact ih1
          · exact ih2 e he'
        · rcases ih3 with h | ⟨e, he, h⟩
          · exact Or.inr ⟨a, List.mem_cons_self a es, h⟩
          · exact Or.inr ⟨e, List.mem_cons_of_mem a he, h⟩
      · rw [if_neg ha]
        obtain ⟨ih1, ih2, ih3⟩ := ih c0 t0
        refine ⟨ih1, ?_, ?_⟩
        · intro e he
          rcases List.mem_cons.1 he with rfl | he'
          · exact ih1.trans (le_of_not_le ha)
          · exact ih2 e he'
        · rcases ih3 with h | ⟨e, he, h⟩
          · exact Or.inl h
          · exact Or.inr ⟨e, List.mem_cons_of_mem a he, h⟩

theorem pickLink_inset (S : List Int) (es : List Edge)
    (h0 : ∀ e ∈ es, e.link ≠ 0) (hin : ∃ e ∈ es, e.link ∈ S) :
    ∃ e ∈ es, pickLink S es = e.link ∧ e.link ∈ S := by
  obtain ⟨e, he, heq, hS⟩ := (foldl_inset S es 0).2 hin
  refine ⟨e, he, ?_, hS⟩
  simp only [pickLink, heq, if_neg (h0 e he)]

theorem pickLink_mincost (S : List Int) (e0 : Edge) (es' : List Edge)
    (hout : ∀ e ∈ e0 :: es', e.link ∉ S) :
    ∃ e ∈ e0 :: es', pickLink S (e0 :: es') = e.link ∧
      ∀ f ∈ e0 :: es', e.cost ≤ f.cost := by
  have ht : (e0 :: es').foldl (fun t e => if e.link ∈ S then e.link else t) 0 = 0 :=
    (foldl_inset S (e0 :: es') 0).1 hout
  simp only [pickLink, ht, if_pos rfl]
  rw [List.foldl_cons, if_pos (le_refl e0.cost)]
  obtain ⟨h1, h2, h3⟩ := foldl_mincost es' e0.cost e0.link
  rcases h3 with h3 | ⟨e, he, h3⟩
  · refine ⟨e0, List.mem_cons_self e0 es', by simp [h3], ?_⟩
    intro f hf
    rcases List.mem_cons.1 hf with rfl | hf'
    · exact le_refl f.cost
    · have := h2 f hf'
      rw [h3] at this
      exact this
  · refine ⟨e, List.mem_cons_of_mem e0 he, by simp [h3], ?_⟩
    intro f hf
    rcases List.mem_cons.1 hf with rfl | hf'
    · have := h1
      rw [h3] at this
      exact this
    · have := h2 f hf'
      rw [h3] at this
      exact this

/-- C6 amended: for a consecutive node pair of a path, `GetTLINK` chooses
an edge whose link is in the route link list whenever a parallel edge with
an in-set link exists, regardless of cost, PROVIDED every parallel edge of
the pair carries a nonzero link id (link id 0 collides with the sentinel
and defeats the in-set preference); when no parallel edge is in the set, a
minimum-cost parallel edge is chosen. -/
theorem C6_resolve_links (g : Graph) (S : List Int) (path : List Int) (u v : Int)
    (hp : (u, v) ∈ path.zip path.tail)
    (h0 : ∀ e ∈ edgesBetween g u v, e.link ≠ 0) :
    pickLink S (edgesBetween g u v) ∈ GetTLINK g path S ∧
    ((∃ e ∈ edgesBetween g u v, e.link ∈ S) →
      ∃ e ∈ edgesBetween g u v, pickLink S (edgesBetween g u v) = e.link ∧ e.link ∈ S) ∧
    ((edgesBetween g u v ≠ [] ∧ ∀ e ∈ edgesBetween g u v, e.link ∉ S) →
      ∃ e ∈ edgesBetween g u v, pickLink S (edgesBetween g u v) = e.link ∧
        ∀ f ∈ edgesBetween g u v, e.cost ≤ f.cost) := by
  refine ⟨?_, ?_, ?_⟩
  · exact List.mem_map_of_mem (fun p => pickLink S (edgesBetween g p.1 p.2)) hp
  · intro hin
    exact pickLink_inset S _ h0 hin
  · rintro ⟨hne, hout⟩
    cases hes : edgesBetween g u v with
    | nil => exact absurd hes hne
    | cons e0 es' =>
        rw [hes] at hout
        exact pickLink_mincost S e0 es' hout

/-- C6 counterexample: with parallel edges 1→2 of links 0 (in the route
set, cost 5) and 7 (not in the set, cost 1), an in-set edge exists but
`GetTLINK` resolves the pair to link 7: the sentinel `tlink = 0` defeats
the in-set preference for link id 0. -/
theorem C6_counterexample :
    (∃ e ∈ edgesBetween c6g 1 2, e.link ∈ ([0] : List Int)) ∧
    GetTLINK c6g [1, 2] [0] = [7] ∧ (7 : Int) ∉ ([0] : List Int) := by
  refine ⟨?_, ?_, by decide⟩
  · have h : edgesBetween c6g 1 2 = c6g := by with_unfolding_all rfl
    rw [h]
    exact ⟨⟨1, 2, 0, 0, 5, 0⟩, by simp [c6g], by decide⟩
  · with_unfolding_all rfl

/-- C6 witness: with nonzero parallel links 101 (in set, cost 5) and 102
(cost 1), the in-set edge is chosen despite its larger cost. -/
theorem C6_witness :
    ∃ e ∈ edgesBetween c6wg 1 2, pickLink [101] (edgesBetween c6wg 1 2) = e.link ∧
      e.link ∈ ([101] : List Int) := by
  exact (C6_resolve_links c6wg [101] [1, 2] 1 2 (by decide) (by decide)).2.1 (by decide)

theorem foldr_minOpt_mem :
    ∀ (l : List Nat) (k : Nat),
      l.foldr (fun k acc => match acc with | none => some k | some m => some (min k m))
          none = some k → k ∈ l := by
  intro l
  induction l with
  | nil => intro k h; exact Option.noConfusion h
  | cons a t ih =>
      intro k h
      simp only [List.foldr_cons] at h
      cases hacc : t.foldr
          (fun k acc => match acc with | none => some k | some m => some (min k m)) none with
      | none =>
          rw [hacc] at h
          injection h with h
          subst h
          exact List.mem_cons_self a t
      | some m =>
          rw [hacc] at h
          injection h with h
          rcases le_total a m with hle | hle
          · rw [min_eq_left hle] at h
            subst h
            exact List.mem_cons_self a t
          · rw [min_eq_right hle] at h
            subst h
            exact List.mem_cons_of_mem a (ih m hacc)

theorem foldr_minOpt_cons (a : Nat) (l : List Nat) :
    ∃ k, (a :: l).foldr
        (fun k acc => match acc with | none => some k | some m => some (min k m)) none =
      some k := by
  simp only [List.foldr_cons]
  cases l.foldr (fun k acc => match acc with | none => some k | some m => some (min k m))
      none with
  | none => exact ⟨a, rfl⟩
  | some m => exact ⟨min a m, rfl⟩

theorem minKeyBetween_mem (es : List Edge) (u v : Int) :
    ∀ k, minKeyBetween es u v = some k →
      ∃ e ∈ es, e.u = u ∧ e.v = v ∧ e.key = k := by
  intro k h
  unfold minKeyBetween at h
  have hk := foldr_minOpt_mem _ k h
  obtain ⟨e, hef, hkey⟩ := List.mem_map.1 hk
  obtain ⟨hes, hp⟩ := List.mem_filter.1 hef
  simp only [decide_eq_true_eq] at hp
  exact ⟨e, hes, hp.1, hp.2, hkey⟩

theorem minKeyBetween_isSome (es : List Edge) (u v : Int) (e : Edge) (he : e ∈ es)
    (hu : e.u = u) (hv : e.v = v) : ∃ k, minKeyBetween es u v = some k := by
  unfold minKeyBetween
  have hmem : e ∈ es.filter (fun x => decide (x.u = u ∧ x.v = v)) :=
    List.mem_filter.2 ⟨he, by simp [hu, hv]⟩
  cases hf : es.filter (fun x => decide (x.u = u ∧ x.v = v)) with
  | nil => rw [hf] at hmem; exact absurd hmem (List.not_mem_nil e)
  | cons b l' =>
      simp only [List.map_cons]
      exact foldr_minOpt_cons b.key (l'.map (·.key))

theorem mem_removeMinKey (es : List Edge) (u v : Int) :
    ∀ e ∈ removeMinKey es u v, e ∈ es := by
  intro e he
  unfold removeMinKey at he
  cases h : minKeyBetween es u v with
  | none => rw [h] at he; exact he
  | some k =>
      rw [h] at he
      exact List.mem_of_mem_eraseP he

theorem countP_removeMinKey_self (es : List Edge) (u v : Int) (e : Edge) (he : e ∈ es)
    (hu : e.u = u) (hv : e.v = v) :
    (removeMinKey es u v).countP (fun e => decide (e.u = u ∧ e.v = v)) + 1 =
      es.countP (fun e => decide (e.u = u ∧ e.v = v)) := by
  obtain ⟨k, hk⟩ := minKeyBetween_isSome es u v e he hu hv
  obtain ⟨e', he', hu', hv', hk'⟩ := minKeyBetween_mem es u v k hk
  unfold removeMinKey
  rw [hk]
  have hpe' : (fun x => decide (x.u = u ∧ x.v = v ∧ x.key = k)) e' = true := by
    simp [hu', hv', hk']
  obtain ⟨x, l₁, l₂, hnl₁, hpx, heq, herase⟩ :=
    @List.exists_of_eraseP _ (fun x => decide (x.u = u ∧ x.v = v ∧ x.key = k)) _ _ he' hpe'
  dsimp only
  rw [herase, heq]
  simp only [decide_eq_true_eq] at hpx
  have hcond : x.u = u ∧ x.v = v := ⟨hpx.1, hpx.2.1⟩
  simp only [List.countP_append, List.countP_cons, if_pos (decide_eq_true hcond)]
  omega

theorem countP_removeMinKey_other (es : List Edge) (u v u' v' : Int)
    (hne : ¬(u = u' ∧ v = v')) :
    (removeMinKey es u v).countP (fun e => decide (e.u = u' ∧ e.v = v')) =
      es.countP (fun e => decide (e.u = u' ∧ e.v = v')) := by
  unfold removeMinKey
  cases hk : minKeyBetween es u v with
  | none => rfl
  | some k =>
      by_cases hex : ∃ x ∈ es, (fun x => decide (x.u = u ∧ x.v = v ∧ x.key = k)) x = true
      · obtain ⟨x, hx, hpx⟩ := hex
        obtain ⟨y, l₁, l₂, hnl₁, hpy, heq, herase⟩ :=
          @List.exists_of_eraseP _ (fun x => decide (x.u = u ∧ x.v = v ∧ x.key = k)) _ _ hx hpx
        dsimp only
        rw [herase, heq]
        simp only [decide_eq_true_eq] at hpy
        have hcond : ¬(decide (y.u = u' ∧ y.v = v') = true) := by
          simp only [decide_eq_true_eq]
          rintro ⟨hyu, hyv⟩
          exact hne ⟨hpy.1.symm.trans hyu, hpy.2.1.symm.trans hyv⟩
        simp only [List.countP_append, List.countP_cons, if_neg hcond]
        omega
      · have herase : es.eraseP (fun x => decide (x.u = u ∧ x.v = v ∧ x.key = k)) = es :=
          List.eraseP_of_forall_not (fun a ha hpa => hex ⟨a, ha, hpa⟩)
        dsimp only
        rw [herase]

theorem prune_fold_inv (S : List Int) :
    ∀ (snap : List Edge) (acc : List Edge),
      (∀ u v, (∃ e ∈ acc, e.u = u ∧ e.v = v ∧ e.link ∉ S) →
        acc.countP (fun e => decide (e.u = u ∧ e.v = v)) ≤
          snap.countP (fun e => decide (e.u = u ∧ e.v = v ∧ ¬ e.link ∈ S))) →
      ∀ e ∈ snap.foldl
          (fun es it => if it.link ∈ S then es else removeMinKey es it.u it.v) acc,
        e.link ∈ S := by
  intro snap
  induction snap with
  | nil =>
      intro acc hinv e he
      by_contra hnot
      have h := hinv e.u e.v ⟨e, he, rfl, rfl, hnot⟩
      simp only [List.countP_nil, Nat.le_zero] at h
      have hpos : 0 < acc.countP (fun x => decide (x.u = e.u ∧ x.v = e.v)) :=
        List.countP_pos_iff.2 ⟨e, he, by simp⟩
      omega
  | cons it rest ih =>
      intro acc hinv
      simp only [List.foldl_cons]
      by_cases hit : it.link ∈ S
      · rw [if_pos hit]
        apply ih acc
        intro u v hex
        have h := hinv u v hex
        have hpit : decide (it.u = u ∧ it.v = v ∧ ¬ it.link ∈ S) = false := by
          simp only [decide_eq_false_iff_not]
          rintro ⟨_, _, hns⟩
          exact hns hit
        rw [List.countP_cons, hpit] at h
        simpa using h
      · rw [if_neg hit]
        apply ih (removeMinKey acc it.u it.v)
        intro u v hex'
        have hexacc : ∃ e ∈ acc, e.u = u ∧ e.v = v ∧ e.link ∉ S := by
          obtain ⟨e, he, hrest⟩ := hex'
          exact ⟨e, mem_removeMinKey acc it.u it.v e he, hrest⟩
        have h := hinv u v hexacc
        by_cases hpair : it.u = u ∧ it.v = v
        · obtain ⟨hp1, hp2⟩ := hpair
          subst hp1
          subst hp2
          obtain ⟨e, he, heu, hev, _⟩ := hexacc
          have hrem := countP_removeMinKey_self acc it.u it.v e he heu hev
          have hpit : decide (it.u = it.u ∧ it.v = it.v ∧ ¬ it.link ∈ S) = true := by
            simp [hit]
          rw [List.countP_cons, hpit, if_pos rfl] at h
          omega
        · have hrem := countP_removeMinKey_other acc it.u it.v u v hpair
          have hpit : decide (it.u = u ∧ it.v = v ∧ ¬ it.link ∈ S) = false := by
            simp only [decide_eq_false_iff_not]
            rintro ⟨h1, h2, _⟩
            exact hpair ⟨h1, h2⟩
          rw [List.countP_cons, hpit] at h
          rw [hrem]
          simpa using h

theorem prune_top (S : List Int) (g induced : List Edge)
    (hsubset : ∀ e ∈ induced, e ∈ g)
    (hnomix : ∀ e₁ ∈ g, ∀ e₂ ∈ g, e₁.u = e₂.u → e₁.v = e₂.v →
      (e₁.link ∈ S ↔ e₂.link ∈ S)) :
    ∀ e ∈ pruneEdges S induced, e.link ∈ S := by
  unfold pruneEdges
  apply prune_fold_inv
  rintro u v ⟨e₀, he₀, hu, hv, hout⟩
  apply List.countP_mono_left
  intro a ha hpa
  simp only [decide_eq_true_eq] at hpa
  simp only [decide_eq_true_eq]
  refine ⟨hpa.1, hpa.2, ?_⟩
  have hiff := hnomix a (hsubset a ha) e₀ (hsubset e₀ he₀)
    (by rw [hpa.1, hu]) (by rw [hpa.2, hv])
  exact fun hin => hout (hiff.1 hin)

/-- C3 amended: every edge of the pruned subgraph has its link in the
route's link set PROVIDED no slot (ordered node pair) mixes in-set and
out-of-set parallel edges; with mixed parallel edges the keyless
`remove_edge(u, v)` may delete the in-set edge and keep the out-of-set
one. -/
theorem C3_prune_in_set (g : Graph) (r : Int) (rs : List (Int × List Int))
    (hnomix : ∀ e₁ ∈ g, ∀ e₂ ∈ g, e₁.u = e₂.u → e₁.v = e₂.v →
      (e₁.link ∈ (List.lookup r rs).getD [] ↔ e₂.link ∈ (List.lookup r rs).getD [])) :
    ∀ e ∈ (CreateSubgraph g r rs).2.2.edges, e.link ∈ (CreateSubgraph g r rs).1 := by
  intro e he
  exact prune_top ((List.lookup r rs).getD []) g
    (inducedEdges g (nbunch (routeNodeIndex g ((List.lookup r rs).getD []))))
    (fun f hf => (List.mem_filter.1 hf).1) hnomix e he

/-- C3 counterexample: with parallel edges 1→2 of links 50 (in the route
set, key 0) and 60 (out of the set, key 1), the pruning loop's
`remove_edge(1, 2)` deletes the key-0 in-set edge, and the pruned subgraph
retains exactly the out-of-set link-60 edge. -/
theorem C3_counterexample :
    (CreateSubgraph (CreateDirectedMultiGraph c3segs) 7 c3routeSegs).2.2.edges =
      [⟨1, 2, 1, 60, 1, 0⟩] ∧
    (60 : Int) ∉ (CreateSubgraph (CreateDirectedMultiGraph c3segs) 7 c3routeSegs).1 := by
  constructor
  · with_unfolding_all rfl
  · have h : (CreateSubgraph (CreateDirectedMultiGraph c3segs) 7 c3routeSegs).1 = [50] := by
      with_unfolding_all rfl
    rw [h]
    decide

/-- C3 witness: on an unmixed fixture the retained edge (link 50) is in
the route set. -/
theorem C3_witness :
    Edge.link ⟨1, 2, 0, 50, 1, 0⟩ ∈
      (CreateSubgraph (CreateDirectedMultiGraph c3wsegs) 7 c3routeSegs).1 := by
  have hmem : (⟨1, 2, 0, 50, 1, 0⟩ : Edge) ∈
      (CreateSubgraph (CreateDirectedMultiGraph c3wsegs) 7 c3routeSegs).2.2.edges := by
    have h : (CreateSubgraph (CreateDirectedMultiGraph c3wsegs) 7 c3routeSegs).2.2.edges =
        [⟨1, 2, 0, 50, 1, 0⟩] := by with_unfolding_all rfl
    rw [h]
    exact List.mem_singleton.2 rfl
  exact C3_prune_in_set (CreateDirectedMultiGraph c3wsegs) 7 c3routeSegs (by decide)
    ⟨1, 2, 0, 50, 1, 0⟩ hmem
